import Mathlib

/-!
Verification of the jtg task-orchestration runtime ("JS Task Group").

This file shallowly embeds the core of the source (the `Ctx` scope type with
its single-flight task memo and the `run` / `par` / `ser` combinators, the
`Abort` cancellation-node tree, the CLI task selection `runArgs`, and the
process helpers `wait` / `spawn` / `fork` / `procValid`) as executable Lean
definitions, and proves or refutes the specification's claims about them.

JavaScript is single-threaded: "concurrent" callers interleave as a sequence
of synchronous steps, so stateful code is embedded as explicit state passing,
and a sequence of calls is a list folded over the state.
-/

set_option linter.unusedVariables false

/-- Decidable equality for `Except`, used to evaluate witnesses. -/
instance {ε α : Type} [DecidableEq ε] [DecidableEq α] : DecidableEq (Except ε α) := fun x y =>
  match x, y with
  | .ok a, .ok b =>
    if h : a = b then isTrue (by rw [h]) else isFalse (fun hh => h (Except.ok.inj hh))
  | .ok _, .error _ => isFalse (fun hh => nomatch hh)
  | .error _, .ok _ => isFalse (fun hh => nomatch hh)
  | .error e, .error e' =>
    if h : e = e' then isTrue (by rw [h]) else isFalse (fun hh => h (Except.error.inj hh))

namespace Jtg

/-! ## Task memo and `Ctx.run`

Source (`Ctx` in `src/unnamed/part_001`, identical logic in `src/jtg.mjs` and
`src/unnamed/part_000`):

  run(fun) \x7b
    if (!this.vals.has(fun)) this.vals.set(fun, fun(this))
    return this.vals.get(fun)
  \x7d

`this.vals` is a single JS `Map` keyed by task-function identity, created by
the root `Ctx` and shared by every descendant scope: `Ctx.sub` returns
`Object.create(this, ...)`, which adds no own `vals` property, so every
sub-scope resolves `this.vals` to the root's map through the prototype chain.
The memo is therefore modelled as one piece of state threaded through all
calls, no matter which scope in the tree made them.
-/

/-- Task-function identity (JS function object identity), modelled as `Nat`. -/
abbrev TaskId := Nat

/-- The shared memo `ctx.vals`: a JS `Map` from task-function identity to the
stored invocation result, modelled as an association list. `Ctx.run` only ever
inserts a key that is absent, so insertion position is irrelevant to lookups. -/
abbrev Memo (α : Type) := List (TaskId × α)

/-- `this.vals.get(fun)` (and `has` via `isSome`). -/
def memoFind? {α : Type} : Memo α → TaskId → Option α
  | [], _ => none
  | (k, v) :: rest, f => if k = f then some v else memoFind? rest f

/-- `this.vals.set(fun, v)` for a key that is not yet present. -/
def memoSet {α : Type} (m : Memo α) (f : TaskId) (v : α) : Memo α :=
  (f, v) :: m

/-- What invoking a task-function body does: either throw synchronously
(`fun(this)` raises before returning) or return a value. For async task
functions the returned value is the promise, which may itself later reject;
that inner outcome lives inside `α` (instantiated as `Except` where needed). -/
inductive TaskRet (ε α : Type) where
  | thrown (e : ε)
  | ret (v : α)
deriving DecidableEq

/-- Result of one `Ctx.run` call: the synchronous outcome (`Except.error` is a
synchronous throw propagating out of `run`), the memo afterwards, and whether
this call invoked the task body (ghost instrumentation for counting). -/
structure RunRes (ε α : Type) where
  result : Except ε α
  memo : Memo α
  invoked : Bool

namespace Ctx

/-- `Ctx.run(fun)`. The argument `fun(this)` is evaluated before
`this.vals.set` runs, so a synchronous throw leaves the memo unchanged. -/
def run {ε α : Type} (m : Memo α) (body : TaskId → TaskRet ε α) (f : TaskId) :
    RunRes ε α :=
  match memoFind? m f with
  | some v => ⟨.ok v, m, false⟩
  | none =>
    match body f with
    | .thrown e => ⟨.error e, m, true⟩
    | .ret v => ⟨.ok v, memoSet m f v, true⟩

end Ctx

/-- A sequence of `run` calls against the shared memo, in the order the
single-threaded runtime executes them (calls may originate from any scope of
the tree, root or descendant, since all share one memo). Returns, per call,
the task id, the synchronous result, and whether the body was invoked, plus
the final memo. -/
def runCalls {ε α : Type} (body : TaskId → TaskRet ε α) :
    List TaskId → Memo α → List (TaskId × Except ε α × Bool) × Memo α
  | [], m => ([], m)
  | f :: fs, m =>
    let r := Ctx.run m body f
    let rest := runCalls body fs r.memo
    ((f, r.result, r.invoked) :: rest.1, rest.2)

/-- How many of the recorded calls to task `f` actually invoked its body. -/
def countInvoked {ε α : Type} (outs : List (TaskId × Except ε α × Bool))
    (f : TaskId) : Nat :=
  (outs.filter (fun t => t.1 == f && t.2.2)).length

theorem runCalls_cons {ε α : Type} (body : TaskId → TaskRet ε α) (c : TaskId)
    (cs : List TaskId) (m : Memo α) :
    runCalls body (c :: cs) m =
      ((c, (Ctx.run m body c).result, (Ctx.run m body c).invoked) ::
        (runCalls body cs (Ctx.run m body c).memo).1,
       (runCalls body cs (Ctx.run m body c).memo).2) := rfl

theorem memoFind?_memoSet_self {α : Type} (m : Memo α) (f : TaskId) (v : α) :
    memoFind? (memoSet m f v) f = some v := by
  simp [memoSet, memoFind?]

theorem memoFind?_memoSet_ne {α : Type} {m : Memo α} {f g : TaskId} {v : α}
    (h : f ≠ g) : memoFind? (memoSet m f v) g = memoFind? m g := by
  simp [memoSet, memoFind?, h]

theorem Ctx.run_memoized {ε α : Type} {m : Memo α} {body : TaskId → TaskRet ε α}
    {f : TaskId} {v : α} (h : memoFind? m f = some v) :
    Ctx.run m body f = ⟨.ok v, m, false⟩ := by
  simp [Ctx.run, h]

theorem Ctx.run_fresh_ret {ε α : Type} {m : Memo α} {body : TaskId → TaskRet ε α}
    {f : TaskId} {v : α} (h : memoFind? m f = none) (hb : body f = .ret v) :
    Ctx.run m body f = ⟨.ok v, memoSet m f v, true⟩ := by
  simp [Ctx.run, h, hb]

theorem Ctx.run_fresh_thrown {ε α : Type} {m : Memo α} {body : TaskId → TaskRet ε α}
    {f : TaskId} {e : ε} (h : memoFind? m f = none) (hb : body f = .thrown e) :
    Ctx.run m body f = ⟨.error e, m, true⟩ := by
  simp [Ctx.run, h, hb]

/-- A `run` call on task `c` does not change what the memo stores for `f ≠ c`. -/
theorem memoFind?_run_ne {ε α : Type} {m : Memo α} {body : TaskId → TaskRet ε α}
    {c f : TaskId} (h : c ≠ f) :
    memoFind? (Ctx.run m body c).memo f = memoFind? m f := by
  unfold Ctx.run
  cases hm : memoFind? m c with
  | some v => simp
  | none =>
    cases hb : body c with
    | thrown e => simp
    | ret v => simpa using memoFind?_memoSet_ne h

/-- Once a value is stored for `f`, it stays stored through any `run` call. -/
theorem memoFind?_run_mono {ε α : Type} {m : Memo α} {body : TaskId → TaskRet ε α}
    {c f : TaskId} {v : α} (h : memoFind? m f = some v) :
    memoFind? (Ctx.run m body c).memo f = some v := by
  by_cases hc : c = f
  · subst hc
    rw [Ctx.run_memoized h]
    exact h
  · rw [memoFind?_run_ne hc]
    exact h

theorem countInvoked_cons {ε α : Type} (c : TaskId) (res : Except ε α)
    (inv : Bool) (rest : List (TaskId × Except ε α × Bool)) (f : TaskId) :
    countInvoked ((c, res, inv) :: rest) f =
      (if c = f ∧ inv = true then 1 else 0) + countInvoked rest f := by
  simp only [countInvoked, List.filter_cons]
  by_cases h1 : c = f
  · subst h1
    rcases Bool.eq_false_or_eq_true inv with hi | hi <;> subst hi <;>
      simp [Nat.add_comm]
  · simp [h1]

/-- After `f` is memoized with value `v`, any further sequence of calls never
invokes `f` again, every call to `f` returns the stored `v`, and the memo
keeps `v` for `f`. -/
theorem runCalls_stored {ε α : Type} (body : TaskId → TaskRet ε α)
    (calls : List TaskId) (m : Memo α) (f : TaskId) (v : α)
    (h : memoFind? m f = some v) :
    countInvoked (runCalls body calls m).1 f = 0 ∧
    (∀ t ∈ (runCalls body calls m).1, t.1 = f →
      t.2.1 = Except.ok v ∧ t.2.2 = false) ∧
    memoFind? (runCalls body calls m).2 f = some v := by
  induction calls generalizing m with
  | nil => simpa [runCalls, countInvoked]
  | cons c cs ih =>
    have hmono : memoFind? (Ctx.run m body c).memo f = some v := memoFind?_run_mono h
    obtain ⟨ih1, ih2, ih3⟩ := ih (Ctx.run m body c).memo hmono
    rw [runCalls_cons]
    refine ⟨?_, ?_, ?_⟩
    · rw [countInvoked_cons, ih1]
      by_cases hc : c = f
      · subst hc
        rw [Ctx.run_memoized h]
        simp
      · simp [hc]
    · intro t ht hf
      rcases List.mem_cons.mp ht with rfl | ht
      · simp only at hf
        subst hf
        rw [Ctx.run_memoized h]
        exact ⟨rfl, rfl⟩
      · exact ih2 t ht hf
    · exact ih3

/-- C1 core: from a memo with no entry for `f`, a task whose body returns `v`
is invoked exactly once across any sequence of calls (once if `f` is called at
all, never otherwise), every call to `f` returns the same stored result, and
the memo ends up holding it. -/
theorem runCalls_fresh {ε α : Type} (body : TaskId → TaskRet ε α)
    (calls : List TaskId) (m : Memo α) (f : TaskId) (v : α)
    (hfresh : memoFind? m f = none) (hret : body f = .ret v) :
    countInvoked (runCalls body calls m).1 f = (if f ∈ calls then 1 else 0) ∧
    (∀ t ∈ (runCalls body calls m).1, t.1 = f → t.2.1 = Except.ok v) ∧
    (f ∈ calls → memoFind? (runCalls body calls m).2 f = some v) := by
  induction calls generalizing m with
  | nil => simp [runCalls, countInvoked]
  | cons c cs ih =>
    rw [runCalls_cons]
    by_cases hc : c = f
    · subst hc
      rw [Ctx.run_fresh_ret hfresh hret]
      obtain ⟨hs1, hs2, hs3⟩ := runCalls_stored body cs (memoSet m c v) c v
        (memoFind?_memoSet_self m c v)
      refine ⟨?_, ?_, ?_⟩
      · rw [countInvoked_cons, hs1]
        simp
      · intro t ht hf
        rcases List.mem_cons.mp ht with rfl | ht
        · rfl
        · exact (hs2 t ht hf).1
      · intro _
        exact hs3
    · have hfresh' : memoFind? (Ctx.run m body c).memo f = none :=
        (memoFind?_run_ne hc).trans hfresh
      obtain ⟨ih1, ih2, ih3⟩ := ih (Ctx.run m body c).memo hfresh'
      refine ⟨?_, ?_, ?_⟩
      · rw [countInvoked_cons, ih1]
        by_cases hfm : f ∈ cs <;>
          simp [hc, hfm, List.mem_cons, Ne.symm hc]
      · intro t ht hf
        rcases List.mem_cons.mp ht with rfl | ht
        · exact absurd hf hc
        · exact ih2 t ht hf
      · intro hmem
        rcases List.mem_cons.mp hmem with rfl | hmem
        · exact absurd rfl hc
        · exact ih3 hmem

/-- C1: for every task function `f` (whose invocation returns a result `v` —
for async tasks, its promise) and every scope in a scope tree sharing one
memo, any number of `run(scope, f)` calls, in any interleaving with other
calls against the same shared memo (JS being single-threaded, concurrent
callers interleave into such a sequence; calls may come from the root or any
descendant scope since `Ctx.sub` shares `vals`), invokes `f` exactly once,
and every call returns the same memoized result. Instantiating `α` with
`Except` outcomes covers "the same failure": a stored rejected promise is
returned alike to all callers. -/
theorem C1_run_single_flight {ε α : Type} (body : TaskId → TaskRet ε α)
    (calls : List TaskId) (m : Memo α) (f : TaskId) (v : α)
    (hfresh : memoFind? m f = none) (hret : body f = TaskRet.ret v) :
    countInvoked (runCalls body calls m).1 f = (if f ∈ calls then 1 else 0) ∧
    (∀ t ∈ (runCalls body calls m).1, t.1 = f → t.2.1 = Except.ok v) := by
  obtain ⟨h1, h2, _⟩ := runCalls_fresh body calls m f v hfresh hret
  exact ⟨h1, h2⟩

/-- Witness for C1: three calls to task `0` (interleaved with a call to task
`1`) starting from an empty memo invoke its body exactly once. -/
theorem C1_run_single_flight_witness :
    countInvoked (runCalls (fun _ => TaskRet.ret (ε := Nat) (7 : Nat))
        [0, 1, 0, 0] ([] : Memo Nat)).1 0 = (if 0 ∈ [0, 1, 0, 0] then 1 else 0) :=
  (C1_run_single_flight (fun _ => TaskRet.ret 7) [0, 1, 0, 0] [] 0 7 rfl rfl).1

/-! ## Failure memoization (C3)

In `Ctx.run`, `fun(this)` is evaluated as the argument of `this.vals.set`, so
a task that throws *synchronously* (before returning its promise) propagates
the exception out of `run` without anything being stored: the memo is
unchanged and the next `run` for the same task invokes it again. Only a
failure delivered through the *returned* value (an async task's rejected
promise) is memoized. -/

/-- C3 counterexample: task `0` throws synchronously (`body 0 = thrown 5`).
The first `run` from the empty memo invokes it and stores nothing, and a
second `run` invokes it again — refuting "the failure is stored in the memo,
so every subsequent run … returns that same failure without invoking f
again" for synchronous throws. -/
theorem C3_sync_throw_not_memoized_cex :
    (Ctx.run ([] : Memo Nat) (fun _ => TaskRet.thrown (5 : Nat)) 0).invoked = true ∧
    (Ctx.run ([] : Memo Nat) (fun _ => TaskRet.thrown (5 : Nat)) 0).memo = [] ∧
    (Ctx.run (Ctx.run ([] : Memo Nat) (fun _ => TaskRet.thrown (5 : Nat)) 0).memo
      (fun _ => TaskRet.thrown (5 : Nat)) 0).invoked = true :=
  ⟨rfl, rfl, rfl⟩

/-- C3 (amended): for every task function `f` whose invocation fails by
*returning* a failed result (a rejected promise), the failure is stored in
the memo, so every subsequent `run(scope, f)` call returns that same failure
without invoking `f` again; a synchronous throw, by contrast, is not stored
(see the counterexample). -/
theorem C3_returned_failure_memoized {E V : Type}
    (body : TaskId → TaskRet E (Except E V)) (m : Memo (Except E V))
    (f : TaskId) (e : E) (calls : List TaskId)
    (hfresh : memoFind? m f = none)
    (hb : body f = TaskRet.ret (Except.error e)) :
    (Ctx.run m body f).result = Except.ok (Except.error e) ∧
    (Ctx.run m body f).invoked = true ∧
    memoFind? (Ctx.run m body f).memo f = some (Except.error e) ∧
    countInvoked (runCalls body calls (Ctx.run m body f).memo).1 f = 0 ∧
    (∀ t ∈ (runCalls body calls (Ctx.run m body f).memo).1, t.1 = f →
      t.2.1 = Except.ok (Except.error e)) := by
  rw [Ctx.run_fresh_ret hfresh hb]
  have hstored : memoFind? (memoSet m f (Except.error e)) f = some (Except.error e) :=
    memoFind?_memoSet_self m f (Except.error e)
  obtain ⟨h1, h2, _⟩ :=
    runCalls_stored body calls (memoSet m f (Except.error e)) f (Except.error e) hstored
  exact ⟨rfl, rfl, hstored, h1, fun t ht hf => (h2 t ht hf).1⟩

/-- Witness for C3 (amended): task `0` returns a rejected promise; two later
calls to it invoke nothing. -/
theorem C3_returned_failure_memoized_witness :
    countInvoked (runCalls (fun _ => TaskRet.ret (ε := Nat) (Except.error (3 : Nat)))
      [0, 0]
      (Ctx.run ([] : Memo (Except Nat Nat))
        (fun _ => TaskRet.ret (ε := Nat) (Except.error (3 : Nat))) 0).memo).1 0 = 0 :=
  (C3_returned_failure_memoized (V := Nat)
    (fun _ => TaskRet.ret (Except.error 3)) [] 0 3 [0, 0] rfl rfl).2.2.2.1

/-! ## `Ctx.par` (C4)

Source: `par(...funs) \x7b eachValid(funs, isFun); return
Promise.all(funs.map(this.run, this)) \x7d`. `funs.map(this.run, this)` is a
synchronous map: it performs the `run` calls one after another with no
suspension point in between, threading the shared memo — which is exactly
`runCalls` (the invocation flags are ghost instrumentation).
`eachValid(funs, isFun)` is a no-op in this typed embedding, where every
`TaskId` denotes a function. -/

/-- `Ctx.par`: the synchronous fan-out part (`funs.map(this.run, this)`). -/
def Ctx.par {E V : Type} (m : Memo (Except E V))
    (body : TaskId → TaskRet E (Except E V)) (funs : List TaskId) :
    List (TaskId × Except E (Except E V) × Bool) × Memo (Except E V) :=
  runCalls body funs m

/-- `Promise.all` applied to the mapped run results: resolves with the list of
values in input order when every element fulfills (outer `error` would be a
synchronous throw inside the map, inner `error` a rejected stored promise). -/
def awaitAll {E V : Type} : List (Except E (Except E V)) → Except E (List V)
  | [] => .ok []
  | .error e :: _ => .error e
  | .ok (.error e) :: _ => .error e
  | .ok (.ok v) :: rest => (awaitAll rest).map (fun vs => v :: vs)

/-- Task `f` will fulfill: either already memoized with a fulfilled promise,
or not memoized and with a body that returns a fulfilled promise. -/
def fulfills {E V : Type} (m : Memo (Except E V))
    (body : TaskId → TaskRet E (Except E V)) (f : TaskId) : Prop :=
  (∃ w, memoFind? m f = some (Except.ok w)) ∨
  (memoFind? m f = none ∧ ∃ w, body f = TaskRet.ret (Except.ok w))

/-- `fulfills` survives any interposed `run` call. -/
theorem fulfills_run {E V : Type} {m : Memo (Except E V)}
    {body : TaskId → TaskRet E (Except E V)} {c : TaskId} {f : TaskId}
    (h : fulfills m body f) : fulfills (Ctx.run m body c).memo body f := by
  rcases h with ⟨w, hw⟩ | ⟨hn, w, hw⟩
  · exact Or.inl ⟨w, memoFind?_run_mono hw⟩
  · by_cases hc : c = f
    · subst hc
      rw [Ctx.run_fresh_ret hn hw]
      exact Or.inl ⟨w, memoFind?_memoSet_self m c (Except.ok w)⟩
    · exact Or.inr ⟨(memoFind?_run_ne hc).trans hn, w, hw⟩

/-- No call to a task outside the call list ever invokes it. -/
theorem countInvoked_not_mem {ε α : Type} (body : TaskId → TaskRet ε α)
    (calls : List TaskId) (m : Memo α) (f : TaskId) (h : f ∉ calls) :
    countInvoked (runCalls body calls m).1 f = 0 := by
  induction calls generalizing m with
  | nil => simp [runCalls, countInvoked]
  | cons c cs ih =>
    rw [runCalls_cons, countInvoked_cons]
    have hc : c ≠ f := fun hcf => h (hcf ▸ List.mem_cons_self c cs)
    have hcs : f ∉ cs := fun hm => h (List.mem_cons_of_mem c hm)
    simp [hc, ih _ hcs]

/-- Positional alignment of `par`'s fan-out: when every listed task fulfills,
`Promise.all` resolves with a list of the same length whose `i`-th element is
the resolved value of `fns[i]`'s memoized promise. -/
theorem par_aligned_aux {E V : Type} (body : TaskId → TaskRet E (Except E V)) :
    ∀ (funs : List TaskId) (m : Memo (Except E V)),
    (∀ f ∈ funs, fulfills m body f) →
    ∃ vs, awaitAll ((runCalls body funs m).1.map (fun t => t.2.1)) = Except.ok vs ∧
      vs.length = funs.length ∧
      ∀ i g, funs.get? i = some g →
        ∃ w, vs.get? i = some w ∧
          memoFind? (runCalls body funs m).2 g = some (Except.ok w) := by
  intro funs
  induction funs with
  | nil =>
    intro m _
    exact ⟨[], rfl, rfl, fun i g hg => by simp at hg⟩
  | cons c cs ih =>
    intro m hful
    have hc := hful c (List.mem_cons_self c cs)
    have hcs : ∀ f ∈ cs, fulfills (Ctx.run m body c).memo body f :=
      fun f hf => fulfills_run (hful f (List.mem_cons_of_mem c hf))
    obtain ⟨vs, hvs1, hvs2, hvs3⟩ := ih (Ctx.run m body c).memo hcs
    rcases hc with ⟨w, hw⟩ | ⟨hn, w, hw⟩
    · rw [Ctx.run_memoized hw] at hvs1 hvs3
      refine ⟨w :: vs, ?_, by simpa using hvs2, ?_⟩
      · rw [runCalls_cons, Ctx.run_memoized hw]
        simp [awaitAll, hvs1, Except.map]
      · intro i g hg
        cases i with
        | zero =>
          simp only [List.get?] at hg
          obtain rfl : c = g := by injection hg
          refine ⟨w, rfl, ?_⟩
          rw [runCalls_cons, Ctx.run_memoized hw]
          exact (runCalls_stored body cs m c (Except.ok w) hw).2.2
        | succ i =>
          simp only [List.get?] at hg
          obtain ⟨w', hw'1, hw'2⟩ := hvs3 i g hg
          refine ⟨w', by simpa using hw'1, ?_⟩
          rw [runCalls_cons, Ctx.run_memoized hw]
          exact hw'2
    · rw [Ctx.run_fresh_ret hn hw] at hvs1 hvs3
      refine ⟨w :: vs, ?_, by simpa using hvs2, ?_⟩
      · rw [runCalls_cons, Ctx.run_fresh_ret hn hw]
        simp [awaitAll, hvs1, Except.map]
      · intro i g hg
        cases i with
        | zero =>
          simp only [List.get?] at hg
          obtain rfl : c = g := by injection hg
          refine ⟨w, rfl, ?_⟩
          rw [runCalls_cons, Ctx.run_fresh_ret hn hw]
          exact (runCalls_stored body cs (memoSet m c (Except.ok w)) c
            (Except.ok w) (memoFind?_memoSet_self m c (Except.ok w))).2.2
        | succ i =>
          simp only [List.get?] at hg
          obtain ⟨w', hw'1, hw'2⟩ := hvs3 i g hg
          refine ⟨w', by simpa using hw'1, ?_⟩
          rw [runCalls_cons, Ctx.run_fresh_ret hn hw]
          exact hw'2

/-- C4: `par(scope, ...fns)` performs its `run` calls as one synchronous map
(no awaiting in between — `Ctx.par` is that map), invokes each task at most
once even if it was already invoked beforehand (then not at all), and when
every listed task fulfills, the resolved collection is positionally aligned
with the input: its `i`-th element is the resolved value of `fns[i]`'s
memoized promise, regardless of completion order. -/
theorem C4_par_dedup_aligned {E V : Type} (m : Memo (Except E V))
    (body : TaskId → TaskRet E (Except E V)) (funs : List TaskId)
    (hful : ∀ f ∈ funs, fulfills m body f) :
    (∀ f, countInvoked (Ctx.par m body funs).1 f ≤ 1) ∧
    (∀ f w, memoFind? m f = some w → countInvoked (Ctx.par m body funs).1 f = 0) ∧
    (∃ vs, awaitAll ((Ctx.par m body funs).1.map (fun t => t.2.1)) = Except.ok vs ∧
      vs.length = funs.length ∧
      ∀ i g, funs.get? i = some g →
        ∃ w, vs.get? i = some w ∧
          memoFind? (Ctx.par m body funs).2 g = some (Except.ok w)) := by
  refine ⟨?_, ?_, par_aligned_aux body funs m hful⟩
  · intro f
    by_cases hmem : f ∈ funs
    · rcases hful f hmem with ⟨w, hw⟩ | ⟨hn, w, hw⟩
      · have := (runCalls_stored body funs m f (Except.ok w) hw).1
        simp [Ctx.par, this]
      · have := (runCalls_fresh body funs m f (Except.ok w) hn hw).1
        simp only [Ctx.par, this]
        split <;> omega
    · simp [Ctx.par, countInvoked_not_mem body funs m f hmem]
  · intro f w hw
    exact (runCalls_stored body funs m f w hw).1

/-- Witness for C4: tasks `[0, 1, 0]` with fresh fulfilling bodies — task `0`
is invoked at most once despite being listed twice. -/
theorem C4_par_dedup_aligned_witness :
    countInvoked (Ctx.par ([] : Memo (Except Nat Nat))
      (fun f => TaskRet.ret (Except.ok f)) [0, 1, 0]).1 0 ≤ 1 :=
  (C4_par_dedup_aligned [] (fun f => TaskRet.ret (Except.ok f)) [0, 1, 0]
    (fun f _ => Or.inr ⟨rfl, f, rfl⟩)).1 0

/-! ## `Ctx.ser` (C5)

Source: `async ser(...funs) \x7b eachValid(funs, isFun); for (const fun of
funs) await this.run(fun) \x7d`. A synchronous throw out of `run` rejects the
async `ser` call; an awaited rejected promise does the same; either way the
loop stops and the remaining funs are never started. -/

/-- Result of a `ser` call: its outcome, the memo afterwards, and — ghost
instrumentation — the tasks whose bodies it invoked, in execution order. -/
structure SerRes (E V : Type) where
  result : Except E Unit
  memo : Memo (Except E V)
  invocations : List TaskId

/-- `Ctx.ser`: run each listed task in order, awaiting each before starting
the next, stopping at the first failure (thrown or rejected). -/
def Ctx.ser {E V : Type} (body : TaskId → TaskRet E (Except E V)) :
    List TaskId → Memo (Except E V) → SerRes E V
  | [], m => ⟨.ok (), m, []⟩
  | f :: fs, m =>
    match Ctx.run m body f with
    | ⟨.error e, m', inv⟩ => ⟨.error e, m', if inv then [f] else []⟩
    | ⟨.ok (.error e), m', inv⟩ => ⟨.error e, m', if inv then [f] else []⟩
    | ⟨.ok (.ok _), m', inv⟩ =>
      let rest := Ctx.ser body fs m'
      ⟨rest.result, rest.memo, (if inv then [f] else []) ++ rest.invocations⟩

/-- C5: for tasks `a ≠ b`, neither previously memoized, `ser(scope, a, b)`
never starts `b` before `a` has settled: if `a`'s invocation fails (by
synchronous throw or rejected promise) the invocation trace is `[a]` — `b` is
never invoked — and `ser` fails with `a`'s failure; only when `a` settles
successfully is `b` invoked, strictly after `a`, giving the trace `[a, b]`. -/
theorem C5_ser_short_circuit {E V : Type}
    (body : TaskId → TaskRet E (Except E V)) (m : Memo (Except E V))
    (a b : TaskId) (hab : a ≠ b)
    (ha : memoFind? m a = none) (hb : memoFind? m b = none) :
    (∀ e, body a = TaskRet.thrown e →
      (Ctx.ser body [a, b] m).invocations = [a] ∧
      (Ctx.ser body [a, b] m).result = Except.error e) ∧
    (∀ e, body a = TaskRet.ret (Except.error e) →
      (Ctx.ser body [a, b] m).invocations = [a] ∧
      (Ctx.ser body [a, b] m).result = Except.error e) ∧
    (∀ v, body a = TaskRet.ret (Except.ok v) →
      (Ctx.ser body [a, b] m).invocations = [a, b]) := by
  refine ⟨?_, ?_, ?_⟩
  · intro e he
    simp [Ctx.ser, Ctx.run_fresh_thrown ha he]
  · intro e he
    simp [Ctx.ser, Ctx.run_fresh_ret ha he]
  · intro v hv
    have hfb : memoFind? (memoSet m a (Except.ok v)) b = none :=
      (memoFind?_memoSet_ne hab).trans hb
    cases hbb : body b with
    | thrown e2 =>
      simp [Ctx.ser, Ctx.run_fresh_ret ha hv, Ctx.run_fresh_thrown hfb hbb]
    | ret p =>
      cases p with
      | error e2 =>
        simp [Ctx.ser, Ctx.run_fresh_ret ha hv, Ctx.run_fresh_ret hfb hbb]
      | ok w =>
        simp [Ctx.ser, Ctx.run_fresh_ret ha hv, Ctx.run_fresh_ret hfb hbb]

/-- Witness for C5: task `0` returns a rejected promise; `ser` over `[0, 1]`
invokes only task `0`. -/
theorem C5_ser_short_circuit_witness :
    (Ctx.ser (fun f => if f = 0 then TaskRet.ret (Except.error (2 : Nat))
        else TaskRet.ret (Except.ok (0 : Nat))) [0, 1] []).invocations = [0] :=
  ((C5_ser_short_circuit
    (fun f => if f = 0 then TaskRet.ret (Except.error 2)
      else TaskRet.ret (Except.ok 0)) [] 0 1 (by decide) rfl rfl).2.1 2 rfl).1

/-! ## CLI task selection: `runArgs` (C8)

Source (`runArgs` in `src/jtg.mjs` / `src/unnamed/part_000`, and `run` in
`src/unnamed/part_001` with an injected `proc`): construct `Funs` (validating
names), then select by argument count and exact name; note that the
registered-name lookup `funs.get(arg)` happens *before* the
`-h`/`--help`/`help` comparison. Tasks are modelled by their registered
names; `Funs` is an insertion-ordered map, so its first value is the
first-registered task. -/

/-- JSON-string escaping as performed by `JSON.stringify` for the characters
relevant here (backslash and double quote; control characters do not appear
in task names in this development). -/
def jsonEscape (s : String) : String :=
  s.foldl (fun acc ch =>
    if ch = '\\' then acc ++ "\\\\"
    else if ch = '\"' then acc ++ "\\\""
    else acc.push ch) ""

/-- `show` applied to an array of strings: `JSON.stringify`. -/
def showStrArr (names : List String) : String :=
  "[" ++ String.intercalate "," (names.map (fun n => "\"" ++ jsonEscape n ++ "\"")) ++ "]"

/-- `help(funs)` from the source. -/
def help (names : List String) : String :=
  if names.length = 0 then "No tasks are registered."
  else "Known tasks (case-sensitive): " ++ showStrArr names

/-- `Funs.add`: registering a task validates that its name is non-empty and
not yet registered. -/
def Funs.add (acc : List String) (n : String) : Except String (List String) :=
  if n = "" then .error "missing name for task function"
  else if acc.contains n then .error ("duplicate task " ++ n)
  else .ok (acc ++ [n])

/-- `new Funs(...funs)`: register every task in order. -/
def Funs.ofList (ns : List String) : Except String (List String) :=
  ns.foldlM Funs.add []

/-- One console message emitted by `runArgs`, with the help text it carries
(the source interpolates `help(funs)` into the error strings; the structured
fields mirror the template pieces). -/
inductive ConsoleMsg where
  | errMissingTasks
  | errTooMany (helpText : String)
  | outHelp (helpText : String)
  | errNoTask (arg : String) (helpText : String)
deriving DecidableEq

/-- Observable outcome of `runArgs`: which task (if any) was handed to
`runMain`, the console messages, and the `process.exit` code if called. -/
structure CliResult where
  ran : Option String
  printed : List ConsoleMsg
  exitCode : Option Nat
deriving DecidableEq

/-- `runArgs(funs, args)` — branch for branch from the source:
empty args run `funs.def()` (the first-registered task) or report that no
tasks exist; more than one argument reports "too many" with the help text;
a single argument is first looked up as a registered name (running the task
on a hit), only then compared against `-h`/`--help`/`help`, and otherwise
reported as unknown with the help text. -/
def runArgs (names : List String) (args : List String) : CliResult :=
  match args with
  | [] =>
    match names.head? with
    | some n => ⟨some n, [], none⟩
    | none => ⟨none, [.errMissingTasks], some 1⟩
  | [arg] =>
    if names.contains arg then ⟨some arg, [], none⟩
    else if arg = "-h" ∨ arg = "--help" ∨ arg = "help" then
      ⟨none, [.outHelp (help names)], some 0⟩
    else ⟨none, [.errNoTask arg (help names)], some 1⟩
  | _ => ⟨none, [.errTooMany (help names)], some 1⟩

/-- C8 counterexample: a task may legally be registered under the name
`help` (non-empty, unique — `Funs` accepts it), and then the argument
`help` runs that task instead of printing the set of known task names and
stopping: the registered-name lookup precedes the help-flag check. -/
theorem C8_help_named_task_cex :
    Funs.ofList ["help"] = Except.ok ["help"] ∧
    runArgs ["help"] ["help"] = ⟨some "help", [], none⟩ ∧
    ¬ (runArgs ["help"] ["help"]).ran = none := by
  refine ⟨by decide, by decide, by decide⟩

/-- C8 (amended): for every registered task set and argument list — an
argument equal to `-h`/`--help`/`help` *that does not match a registered task
name*, or an unknown task name, or more than one argument, prints the set of
known task names and stops without running any task; a single argument
matching a registered name runs that task (even when the name is a help
flag); an empty argument list runs the first-registered task. -/
theorem C8_runArgs_selection (names : List String) (args : List String) :
    (∀ n, args = [] → names.head? = some n →
      runArgs names args = ⟨some n, [], none⟩) ∧
    (∀ a b rest, args = a :: b :: rest →
      runArgs names args = ⟨none, [.errTooMany (help names)], some 1⟩) ∧
    (∀ arg, args = [arg] → names.contains arg = false →
      ((arg = "-h" ∨ arg = "--help" ∨ arg = "help") →
        runArgs names args = ⟨none, [.outHelp (help names)], some 0⟩) ∧
      (¬ (arg = "-h" ∨ arg = "--help" ∨ arg = "help") →
        runArgs names args = ⟨none, [.errNoTask arg (help names)], some 1⟩)) ∧
    (∀ arg, args = [arg] → names.contains arg = true →
      runArgs names args = ⟨some arg, [], none⟩) := by
  refine ⟨?_, ?_, ?_, ?_⟩
  · intro n hargs hn
    subst hargs
    simp [runArgs, hn]
  · intro a b rest hargs
    subst hargs
    rfl
  · intro arg hargs hmiss
    subst hargs
    have hm : arg ∉ names := by simpa using hmiss
    constructor
    · intro hflag
      simp [runArgs, hm, hflag]
    · intro hflag
      simp [runArgs, hm, hflag]
  · intro arg hargs hhit
    subst hargs
    have hm : arg ∈ names := by simpa using hhit
    simp [runArgs, hm]

/-- Witness for C8 (amended): with tasks `build`, `watch`, the argument
`--help` prints the known-task list, exits 0 and runs nothing. -/
theorem C8_runArgs_selection_witness :
    runArgs ["build", "watch"] ["--help"] =
      ⟨none, [.outHelp (help ["build", "watch"])], some 0⟩ :=
  ((C8_runArgs_selection ["build", "watch"] ["--help"]).2.2.1 "--help" rfl
    (by decide)).1 (by decide)

/-! ## Linked processes: `wait` (C9)

Source: `wait(proc)` returns `undefined` for a nil argument; if
`proc.exitCode` is already set the promise construction and event
subscription are skipped entirely (no deadlock waiting for an event that
already fired) and the call finalizes synchronously via `onProcExit`, which
yields nothing for exit code 0 and throws an error built from the exit code
and `proc.spawnargs` (the original command and arguments) otherwise. -/

/-- The observable fields of a Node `ChildProcess` that `wait`/`kill` use. -/
structure ChildProcess where
  exitCode : Option Int
  spawnargs : List String
  pid : Option Int
deriving DecidableEq

/-- The message of the error thrown for a non-zero exit:
`process $\x7bshow(args)\x7d exited with $\x7bcode\x7d`. -/
def procExitMsg (args : List String) (code : Int) : String :=
  "process " ++ showStrArr args ++ " exited with " ++ toString code

/-- The internal-error message for finalizing a still-running process. -/
def stillRunningMsg (args : List String) : String :=
  "internal error: attempted to finalize child process " ++ showStrArr args ++
    " which is still running"

/-- `onProcExit(proc)`: nil exit code is an internal error; a truthy
(non-zero) exit code throws the process-exit error; zero yields nothing. -/
def onProcExit (proc : ChildProcess) : Except String Unit :=
  match proc.exitCode with
  | none => .error (stillRunningMsg proc.spawnargs)
  | some code => if code ≠ 0 then .error (procExitMsg proc.spawnargs code) else .ok ()

/-- Whether a `wait` call settles without suspending, and with what. -/
inductive WaitRes where
  | immediate (outcome : Except String Unit)
  | suspended
deriving DecidableEq

/-- `wait(proc)`: nil resolves immediately with nothing; a process whose
`exitCode` is already set never subscribes to events and finalizes at once;
otherwise the call suspends on the exit/error events. -/
def wait (proc : Option ChildProcess) : WaitRes :=
  match proc with
  | none => .immediate (.ok ())
  | some p =>
    match p.exitCode with
    | some _ => .immediate (onProcExit p)
    | none => .suspended

/-- C9: `wait` on a process that has already exited resolves immediately
(no suspension): with no value and no error when the exit code is 0, and
with the process-exit error naming the exit code and the original
command/arguments when the exit code is non-zero. -/
theorem C9_wait_already_exited (p : ChildProcess) (c : Int)
    (h : p.exitCode = some c) :
    (c = 0 → wait (some p) = .immediate (.ok ())) ∧
    (c ≠ 0 → wait (some p) =
      .immediate (.error (procExitMsg p.spawnargs c))) := by
  constructor
  · intro hz
    subst hz
    simp [wait, h, onProcExit]
  · intro hnz
    simp [wait, h, onProcExit, hnz]

/-- Witness for C9: a process that exited with code 2 — `wait` fails at once
with the error carrying code 2 and the spawn arguments. -/
theorem C9_wait_already_exited_witness :
    wait (some ⟨some 2, ["sh", "-c", "exit 2"], some 10⟩) =
      .immediate (.error (procExitMsg ["sh", "-c", "exit 2"] 2)) :=
  (C9_wait_already_exited ⟨some 2, ["sh", "-c", "exit 2"], some 10⟩ 2 rfl).2
    (by decide)

/-! ## Spawn-option validation (C10)

Source (`src/jtg.mjs` lines 195–199 and `src/unnamed/part_000` lines
242–246):

  function procValid(cmd, args, opts) \x7b
    valid(cmd, isStr)
    if (!isNil(args)) eachValid(args, isStr)
    if (isNil(opts)) valid(opts, isStruct)
  \x7d

The last guard reads `isNil(opts)`, so `opts` is validated as a plain object
exactly when it is nil — in which case the validation necessarily throws —
while any non-nil `opts` is accepted unexamined. (`src/unnamed/part_001` has
`!isNil(opts)` there instead.) `spawn`/`fork` call `procValid` first, so the
throw is synchronous and happens before `cp.spawn`/`cp.fork` and `link`. -/

/-- JS values as far as the validators inspect them. -/
inductive JVal where
  | vundefined
  | vnull
  | vbool (b : Bool)
  | vnum (n : Int)
  | vstr (s : String)
  | varr (elems : List JVal)
  | vdict
  | vfun (name : String)

def isNil : JVal → Bool
  | .vundefined => true
  | .vnull => true
  | _ => false

def isStr : JVal → Bool
  | .vstr _ => true
  | _ => false

def isObj : JVal → Bool
  | .varr _ => true
  | .vdict => true
  | _ => false

def isArr : JVal → Bool
  | .varr _ => true
  | _ => false

def isStruct (v : JVal) : Bool := isObj v && !(isArr v)

/-- A validation failure (`invalid` / `invalidAt` in the source throw;
the field names the failed test). -/
inductive ValErr where
  | invalid (testName : String)
  | invalidAt (index : Nat) (testName : String)
deriving DecidableEq

/-- `valid(val, test)`. -/
def valid (v : JVal) (test : JVal → Bool) (testName : String) : Except ValErr Unit :=
  if test v then .ok () else .error (.invalid testName)

/-- The element loop of `each(val, validAt, test)`. -/
def validAtAll (elems : List JVal) (test : JVal → Bool) (testName : String)
    (start : Nat) : Except ValErr Unit :=
  match elems with
  | [] => .ok ()
  | e :: rest =>
    if test e then validAtAll rest test testName (start + 1)
    else .error (.invalidAt start testName)

/-- `eachValid(val, test)`: `each` first asserts the value is an array, then
checks every element. -/
def eachValid (v : JVal) (test : JVal → Bool) (testName : String) :
    Except ValErr Unit :=
  match v with
  | .varr elems => validAtAll elems test testName 0
  | _ => .error (.invalid "isArr")

/-- `procValid` as in `src/jtg.mjs` and `src/unnamed/part_000` (the variants
named by the claim): each statement throws (short-circuits) or falls through;
the `opts` guard is `isNil(opts)`. -/
def procValid (cmd args opts : JVal) : Except ValErr Unit :=
  match valid cmd isStr "isStr" with
  | .error e => .error e
  | .ok _ =>
    match (if !(isNil args) then eachValid args isStr "isStr" else .ok ()) with
    | .error e => .error e
    | .ok _ => if isNil opts then valid opts isStruct "isStruct" else .ok ()

/-- `procValid` as in `src/unnamed/part_001` (`jtg_shared`), whose `opts`
guard is `!isNil(opts)`; kept for contrast with the claim's two variants. -/
def procValidShared (cmd args opts : JVal) : Except ValErr Unit :=
  match valid cmd isStr "isStr" with
  | .error e => .error e
  | .ok _ =>
    match (if !(isNil args) then eachValid args isStr "isStr" else .ok ()) with
    | .error e => .error e
    | .ok _ => if !(isNil opts) then valid opts isStruct "isStruct" else .ok ()

/-- The `cp.spawn`/`cp.fork` call that `spawn`/`fork` perform after
validation passes; an `error` result means it was never reached. -/
structure SpawnedProc where
  cmd : JVal
  args : JVal
  opts : JVal

/-- `spawn(cmd, args, opts)` of `src/jtg.mjs`: `procValid` runs first,
synchronously; only when it passes is the process spawned and linked. -/
def spawn (cmd args opts : JVal) : Except ValErr SpawnedProc :=
  match procValid cmd args opts with
  | .error e => .error e
  | .ok _ => .ok ⟨cmd, args, opts⟩

/-- `fork(cmd, args, opts)` of `src/jtg.mjs`: same validation as `spawn`. -/
def fork (cmd args opts : JVal) : Except ValErr SpawnedProc :=
  match procValid cmd args opts with
  | .error e => .error e
  | .ok _ => .ok ⟨cmd, args, opts⟩

theorem validAtAll_ok (elems : List JVal) (test : JVal → Bool) (name : String)
    (h : ∀ e ∈ elems, test e = true) :
    ∀ start, validAtAll elems test name start = .ok () := by
  induction elems with
  | nil => intro start; rfl
  | cons e rest ih =>
    intro start
    have he := h e (List.mem_cons_self e rest)
    simp only [validAtAll, he, if_true]
    exact ih (fun x hx => h x (List.mem_cons_of_mem e hx)) (start + 1)

theorem isStruct_of_nil_false (opts : JVal) (h : isNil opts = true) :
    isStruct opts = false := by
  cases opts <;> simp_all [isNil, isStruct, isObj, isArr]

/-- C10: in the `src/jtg.mjs` and `src/unnamed/part_000` variants, for every
valid command string and argument list, `spawn(cmd, args, opts)` and
`fork(cmd, args, opts)` with nil `opts` throw a validation error
synchronously, before any process is spawned or linked (`procValid` validates
`opts` as a struct exactly when `opts` is nil), while a non-nil `opts` of any
type is accepted without validation. -/
theorem C10_spawn_nil_opts_throws (cmd args opts : JVal)
    (hcmd : isStr cmd = true)
    (hargs : isNil args = true ∨
      (∃ elems, args = JVal.varr elems ∧ ∀ e ∈ elems, isStr e = true)) :
    (isNil opts = true →
      spawn cmd args opts = .error (ValErr.invalid "isStruct") ∧
      fork cmd args opts = .error (ValErr.invalid "isStruct")) ∧
    (isNil opts = false →
      spawn cmd args opts = .ok ⟨cmd, args, opts⟩ ∧
      fork cmd args opts = .ok ⟨cmd, args, opts⟩) := by
  have hv : valid cmd isStr "isStr" = (.ok () : Except ValErr Unit) := by
    simp [valid, hcmd]
  have hargsOk : (if !(isNil args) then eachValid args isStr "isStr" else .ok ()) =
      (.ok () : Except ValErr Unit) := by
    rcases hargs with hnil | ⟨elems, rfl, helems⟩
    · simp [hnil]
    · simp [eachValid, validAtAll_ok elems isStr "isStr" helems 0]
  have hpv : procValid cmd args opts =
      (if isNil opts then valid opts isStruct "isStruct" else .ok ()) := by
    unfold procValid
    rw [hv, hargsOk]
  constructor
  · intro hnil
    have hstruct := isStruct_of_nil_false opts hnil
    have : procValid cmd args opts = .error (ValErr.invalid "isStruct") := by
      rw [hpv]
      simp [hnil, valid, hstruct]
    constructor <;> simp [spawn, fork, this]
  · intro hnotnil
    have : procValid cmd args opts = .ok () := by
      rw [hpv]
      simp [hnotnil]
    constructor <;> simp [spawn, fork, this]

/-- Witness for C10: `spawn("ls", ["-a"], undefined)` — nil opts — throws the
`isStruct` validation error without spawning. -/
theorem C10_spawn_nil_opts_throws_witness :
    spawn (JVal.vstr "ls") (JVal.varr [JVal.vstr "-a"]) JVal.vundefined =
      .error (ValErr.invalid "isStruct") :=
  ((C10_spawn_nil_opts_throws (JVal.vstr "ls") (JVal.varr [JVal.vstr "-a"])
    JVal.vundefined rfl
    (Or.inr ⟨[JVal.vstr "-a"], rfl, by decide⟩)).1 rfl).1

/-! ## The cancellation tree: `Abort` (C2, C6, C7)

Source (`Abort extends AbortController` in `src/unnamed/part_001`):

  constructor(sig) \x7b
    super()
    if (!sig) return
    if (sig.aborted) \x7b this.abort(); return \x7d
    Object.defineProperty(this, 'sig', \x7bvalue: sig\x7d)
    sig.addEventListener('abort', this, \x7bonce: true\x7d)
  \x7d
  sub() \x7b return new this.constructor(this.signal) \x7d
  handleEvent(\x7btype\x7d) \x7b if (type === 'abort') this.abort() \x7d
  abort() \x7b
    if (this.sig) this.sig.removeEventListener('abort', this)
    super.abort()
  \x7d

A node therefore owns an abort flag, remembers which node's signal it was
created from (the cancellation parent), and — while neither side is aborted —
holds a live listener subscription to that parent's signal. Aborting a node
removes its own parent subscription, sets its flag, and (if the flag was not
already set — `AbortController.abort` is idempotent and dispatches only on
the transition) synchronously dispatches the abort event to the listeners
currently registered on its signal, i.e. to its subscribed children, each of
which aborts in turn.

Nodes live in a forest indexed by creation order, so every parent index is
smaller than its child's index. `Ctx.sub` wraps `abc.sub()`; `Ctx.re` is
`this.abort()` followed by `Object.getPrototypeOf(this).sub()`, i.e. a new
node under the aborted node's own creation parent. -/

/-- One cancellation node: its creation parent (`none` for a root), its live
subscription to that parent's signal (`none` when unsubscribed: root, born
aborted, or aborted), and its abort flag. -/
structure ANode where
  parent : Option Nat
  sub : Option Nat
  aborted : Bool
deriving DecidableEq

/-- A forest of cancellation nodes, indexed by creation order. -/
abbrev AbortForest := List ANode

def abortedAt (st : AbortForest) (i : Nat) : Bool :=
  (st[i]?.map ANode.aborted).getD false

def subOf (st : AbortForest) (i : Nat) : Option Nat :=
  st[i]?.bind ANode.sub

def parentOf (st : AbortForest) (i : Nat) : Option Nat :=
  st[i]?.bind ANode.parent

/-- `new Abort()` with no parent signal: an unaborted, unsubscribed root. -/
def newRoot (st : AbortForest) : AbortForest :=
  st ++ [⟨none, none, false⟩]

/-- `new Abort(sig)` with `sig` the signal of node `i` (this is `abc.sub()` /
`Ctx.sub`): if the parent is already aborted the node is created aborted and
never subscribes; otherwise it subscribes to the parent's abort event. -/
def subNode (st : AbortForest) (i : Nat) : AbortForest :=
  match st[i]? with
  | none => st
  | some nd =>
    if nd.aborted then st ++ [⟨some i, none, true⟩]
    else st ++ [⟨some i, some i, false⟩]

/-- The state change `abort()` applies to the node itself:
`removeEventListener` drops its parent subscription, `super.abort()` sets the
flag. -/
def setAborted (st : AbortForest) (i : Nat) : AbortForest :=
  match st[i]? with
  | none => st
  | some nd => st.set i ⟨nd.parent, none, true⟩

/-- The listeners currently registered on node `i`'s signal: exactly the
nodes holding a live subscription to it. -/
def kidsOf (st : AbortForest) (i : Nat) : List Nat :=
  (List.range st.length).filter (fun j => subOf st j == some i)

/-- `abort()` on node `i`, with the synchronous recursive event dispatch of
`AbortController`: nothing happens if the flag is already set; otherwise the
node unsubscribes and sets its flag, then each currently subscribed child
receives the event and aborts in turn. The recursion is fueled; since
subscriptions always point from larger to strictly smaller indices, a fuel of
`st.length` (used by `abortNode`) always suffices. -/
def abortGo : Nat → Nat → AbortForest → AbortForest
  | 0, _, st => st
  | fuel + 1, i, st =>
    match st[i]? with
    | none => st
    | some nd =>
      if nd.aborted then st
      else
        let st1 := setAborted st i
        (kidsOf st1 i).foldl (fun acc j => abortGo fuel j acc) st1

/-- `abort()` on node `i`. -/
def abortNode (st : AbortForest) (i : Nat) : AbortForest :=
  abortGo st.length i st

/-- The forests that can actually arise: roots and children are created one
at a time (`new Ctx()` / `Ctx.sub`), and any node may be aborted at any time
(`Ctx.abort`, `runMain`'s finally, event dispatch). `Ctx.re` is the
composition of an abort and a `subNode` at the original parent. -/
inductive Reach : AbortForest → Prop where
  | nil : Reach []
  | root {st : AbortForest} : Reach st → Reach (newRoot st)
  | sub {st : AbortForest} {i : Nat} : Reach st → i < st.length → Reach (subNode st i)
  | abort {st : AbortForest} (i : Nat) : Reach st → Reach (abortNode st i)

theorem setAborted_length (st : AbortForest) (i : Nat) :
    (setAborted st i).length = st.length := by
  unfold setAborted
  cases st[i]? <;> simp

theorem setAborted_get_self {st : AbortForest} {i : Nat} {nd : ANode}
    (h : st[i]? = some nd) :
    (setAborted st i)[i]? = some ⟨nd.parent, none, true⟩ := by
  simp [setAborted, h, List.getElem?_set_self']

theorem setAborted_get_ne {st : AbortForest} {i j : Nat} (h : i ≠ j) :
    (setAborted st i)[j]? = st[j]? := by
  unfold setAborted
  cases st[i]? with
  | none => rfl
  | some nd => simp [List.getElem?_set_ne h]

/-- A node entry after being marked aborted (parent kept, subscription
dropped, flag set). -/
def ANode.marked (nd : ANode) : ANode := ⟨nd.parent, none, true⟩

/-- `s` differs from `st` only in that some nodes have been marked aborted. -/
structure DerivedFrom (st s : AbortForest) : Prop where
  len : s.length = st.length
  entry : ∀ j : Nat, s[j]? = st[j]? ∨ ∃ nd : ANode, st[j]? = some nd ∧ s[j]? = some nd.marked

theorem derivedFrom_refl (st : AbortForest) : DerivedFrom st st :=
  ⟨rfl, fun _ => Or.inl rfl⟩

theorem derivedFrom_trans {st s t : AbortForest}
    (h1 : DerivedFrom st s) (h2 : DerivedFrom s t) : DerivedFrom st t := by
  refine ⟨h2.len.trans h1.len, fun j => ?_⟩
  rcases h2.entry j with h | ⟨nd, hnd, ht⟩
  · rcases h1.entry j with h' | ⟨nd, hnd, hs⟩
    · exact Or.inl (h.trans h')
    · exact Or.inr ⟨nd, hnd, h.trans hs⟩
  · rcases h1.entry j with h' | ⟨nd', hnd', hs⟩
    · exact Or.inr ⟨nd, h' ▸ hnd, ht⟩
    · refine Or.inr ⟨nd', hnd', ?_⟩
      rw [hs] at hnd
      have hmk : some nd'.marked = some nd := hnd
      have : nd'.marked = nd := by injection hmk
      rw [← this] at ht
      simpa [ANode.marked] using ht

theorem DerivedFrom.parent_eq {st s : AbortForest} (h : DerivedFrom st s)
    (j : Nat) : parentOf s j = parentOf st j := by
  rcases h.entry j with h' | ⟨nd, hnd, hs⟩
  · simp [parentOf, h']
  · simp [parentOf, hnd, hs, ANode.marked]

theorem DerivedFrom.aborted_mono {st s : AbortForest} (h : DerivedFrom st s)
    {j : Nat} (ha : abortedAt st j = true) : abortedAt s j = true := by
  rcases h.entry j with h' | ⟨nd, hnd, hs⟩
  · rw [abortedAt, h']
    exact ha
  · simp [abortedAt, hs, ANode.marked]

theorem DerivedFrom.sub_le {st s : AbortForest} (h : DerivedFrom st s)
    {j p : Nat} (hs : subOf s j = some p) : subOf st j = some p := by
  rcases h.entry j with h' | ⟨nd, hnd, hmk⟩
  · rw [subOf, ← h']
    exact hs
  · rw [subOf, hmk] at hs
    simp [ANode.marked] at hs

theorem DerivedFrom.unaborted_eq {st s : AbortForest} (h : DerivedFrom st s)
    {j : Nat} (ha : abortedAt s j = false) : s[j]? = st[j]? := by
  rcases h.entry j with h' | ⟨nd, hnd, hmk⟩
  · exact h'
  · rw [abortedAt, hmk] at ha
    simp [ANode.marked] at ha

theorem derivedFrom_setAborted (st : AbortForest) (i : Nat) :
    DerivedFrom st (setAborted st i) := by
  refine ⟨setAborted_length st i, fun j => ?_⟩
  by_cases hij : i = j
  · subst hij
    cases h : st[i]? with
    | none =>
      left
      unfold setAborted
      rw [h]
      exact h
    | some nd => exact Or.inr ⟨nd, rfl, setAborted_get_self h⟩
  · exact Or.inl (setAborted_get_ne hij)

theorem foldl_derived {g : AbortForest → Nat → AbortForest}
    (hg : ∀ acc k, DerivedFrom acc (g acc k)) :
    ∀ (ks : List Nat) (acc : AbortForest), DerivedFrom acc (ks.foldl g acc) := by
  intro ks
  induction ks with
  | nil => intro acc; exact derivedFrom_refl acc
  | cons k ks ih =>
    intro acc
    exact derivedFrom_trans (hg acc k) (ih (g acc k))

theorem abortGo_derived : ∀ (fuel i : Nat) (st : AbortForest),
    DerivedFrom st (abortGo fuel i st) := by
  intro fuel
  induction fuel with
  | zero => intro i st; exact derivedFrom_refl st
  | succ n ih =>
    intro i st
    unfold abortGo
    cases h : st[i]? with
    | none => exact derivedFrom_refl st
    | some nd =>
      by_cases ha : nd.aborted
      · simp only [ha, if_true]
        exact derivedFrom_refl st
      · simp only [ha, if_false]
        exact derivedFrom_trans (derivedFrom_setAborted st i)
          (foldl_derived (fun acc k => ih k acc) _ _)

theorem abortNode_derived (st : AbortForest) (i : Nat) :
    DerivedFrom st (abortNode st i) :=
  abortGo_derived st.length i st

theorem abortNode_length (st : AbortForest) (i : Nat) :
    (abortNode st i).length = st.length :=
  (abortNode_derived st i).len

/-- Aborting a node does set its flag (given enough fuel, as `abortNode`
provides). -/
theorem abortGo_aborts_self {fuel i : Nat} {st : AbortForest}
    (hfuel : 1 ≤ fuel) (hi : i < st.length) :
    abortedAt (abortGo fuel i st) i = true := by
  cases fuel with
  | zero => omega
  | succ n =>
    obtain ⟨nd, hnd⟩ : ∃ nd, st[i]? = some nd := ⟨st[i], List.getElem?_eq_getElem hi⟩
    unfold abortGo
    rw [hnd]
    by_cases ha : nd.aborted
    · simp only [ha, if_true]
      simp [abortedAt, hnd, ha]
    · simp only [ha, if_false]
      have h1 : abortedAt (setAborted st i) i = true := by
        simp [abortedAt, setAborted_get_self hnd]
      exact (foldl_derived (fun acc k => abortGo_derived n k acc) _ _).aborted_mono h1

theorem bool_cases (b : Bool) : b = false ∨ b = true := by
  cases b
  · exact Or.inl rfl
  · exact Or.inr rfl

theorem abortGo_succ_none {n i : Nat} {s : AbortForest} (h : s[i]? = none) :
    abortGo (n + 1) i s = s := by
  simp only [abortGo]
  rw [h]

theorem abortGo_succ_aborted {n i : Nat} {s : AbortForest} {nd : ANode}
    (h : s[i]? = some nd) (ha : nd.aborted = true) : abortGo (n + 1) i s = s := by
  simp only [abortGo]
  rw [h]
  simp [ha]

theorem abortGo_succ_active {n i : Nat} {s : AbortForest} {nd : ANode}
    (h : s[i]? = some nd) (ha : nd.aborted = false) :
    abortGo (n + 1) i s =
      (kidsOf (setAborted s i) i).foldl (fun acc j => abortGo n j acc)
        (setAborted s i) := by
  simp only [abortGo]
  rw [h]
  simp [ha]

theorem subOf_lt {st : AbortForest} {l p : Nat} (h : subOf st l = some p) :
    l < st.length := by
  rw [subOf] at h
  cases hl : st[l]? with
  | none => rw [hl] at h; exact absurd h (by simp)
  | some nd => exact (List.getElem?_eq_some.mp hl).1

theorem kidsOf_sub {st : AbortForest} {i k : Nat} (h : k ∈ kidsOf st i) :
    subOf st k = some i := by
  rw [kidsOf] at h
  have := (List.mem_filter.mp h).2
  simpa using this

theorem kidsOf_mem {st : AbortForest} {i k : Nat} (hk : k < st.length)
    (hs : subOf st k = some i) : k ∈ kidsOf st i := by
  rw [kidsOf]
  refine List.mem_filter.mpr ⟨List.mem_range.mpr hk, by simp [hs]⟩

/-- Reachability along live subscriptions: `SubReach st i j` means the abort
event dispatched at `i` reaches `j` through a chain of subscribed listeners
(reflexively). -/
inductive SubReach (st : AbortForest) (i : Nat) : Nat → Prop where
  | refl : SubReach st i i
  | step {j k : Nat} : subOf st j = some k → SubReach st i k → SubReach st i j

theorem subReach_trans {st : AbortForest} {i k j : Nat}
    (h1 : SubReach st i k) (h2 : SubReach st k j) : SubReach st i j := by
  induction h2 with
  | refl => exact h1
  | step hs _ ih => exact SubReach.step hs ih

theorem subReach_mono {s t : AbortForest}
    (hsub : ∀ l p : Nat, subOf s l = some p → subOf t l = some p)
    {i j : Nat} (h : SubReach s i j) : SubReach t i j := by
  induction h with
  | refl => exact SubReach.refl
  | step hs _ ih => exact SubReach.step (hsub _ _ hs) ih

/-- Frame property: aborting node `i` changes no entry outside the set of
nodes reachable from `i` along live subscriptions. -/
theorem abortGo_frame : ∀ (fuel i : Nat) (st : AbortForest) (j : Nat),
    ¬ SubReach st i j → (abortGo fuel i st)[j]? = st[j]? := by
  intro fuel
  induction fuel with
  | zero => intro i st j _; rfl
  | succ n ih =>
    intro i st j hnr
    cases hnd : st[i]? with
    | none => rw [abortGo_succ_none hnd]
    | some nd =>
      rcases bool_cases nd.aborted with ha | ha
      · rw [abortGo_succ_active hnd ha]
        have hij : i ≠ j := fun he => hnr (he ▸ SubReach.refl)
        have hst1 : (setAborted st i)[j]? = st[j]? := setAborted_get_ne hij
        suffices hgen : ∀ (ks : List Nat) (acc : AbortForest),
            (∀ k ∈ ks, subOf (setAborted st i) k = some i) →
            DerivedFrom (setAborted st i) acc → acc[j]? = st[j]? →
            (ks.foldl (fun a k => abortGo n k a) acc)[j]? = st[j]? by
          refine hgen _ _ (fun k hk => kidsOf_sub hk) (derivedFrom_refl _) hst1
        intro ks
        induction ks with
        | nil => intro acc _ _ hj; exact hj
        | cons k ks ihk =>
          intro acc hks hder hj
          rw [List.foldl_cons]
          refine ihk _ (fun k' hk' => hks k' (List.mem_cons_of_mem k hk'))
            (derivedFrom_trans hder (abortGo_derived n k acc)) ?_
          have hnr' : ¬ SubReach acc k j := by
            intro hr
            apply hnr
            have hr1 : SubReach (setAborted st i) k j :=
              subReach_mono (fun l p hp => hder.sub_le hp) hr
            have hr2 : SubReach st k j :=
              subReach_mono (fun l p hp => (derivedFrom_setAborted st i).sub_le hp) hr1
            have hsk : subOf (setAborted st i) k = some i :=
              hks k (List.mem_cons_self k ks)
            have hsk' : subOf st k = some i := (derivedFrom_setAborted st i).sub_le hsk
            exact subReach_trans (SubReach.step hsk' SubReach.refl) hr2
          rw [ih k acc j hnr']
          exact hj
      · rw [abortGo_succ_aborted hnd ha]

theorem abortNode_frame {st : AbortForest} {i j : Nat} (h : ¬ SubReach st i j) :
    (abortNode st i)[j]? = st[j]? :=
  abortGo_frame st.length i st j h

/-- Every member of a processed listener list ends up aborted. -/
theorem foldl_abort_member {n : Nat} (hn : 1 ≤ n) :
    ∀ (ks : List Nat) (acc : AbortForest) (j : Nat), j ∈ ks → j < acc.length →
    abortedAt (ks.foldl (fun a k => abortGo n k a) acc) j = true := by
  intro ks
  induction ks with
  | nil => intro acc j hj _; simp at hj
  | cons k ks ih =>
    intro acc j hj hlt
    rw [List.foldl_cons]
    by_cases hkj : k = j
    · subst hkj
      have h1 : abortedAt (abortGo n k acc) k = true := abortGo_aborts_self hn hlt
      exact (foldl_derived (fun a k' => abortGo_derived n k' a) ks _).aborted_mono h1
    · rcases List.mem_cons.mp hj with rfl | hj'
      · exact absurd rfl hkj
      · refine ih (abortGo n k acc) j hj' ?_
        rw [(abortGo_derived n k acc).len]
        exact hlt

/-- Completeness of the event dispatch: starting from any state `s` derived
from a base forest `st0` whose subscriptions point strictly downward in
index, with fuel at least `st0.length - i`, whenever `abortGo` newly aborts a
node `p`, it also aborts every node subscribed (in `st0`) to `p`. -/
theorem abortGo_complete : ∀ (fuel : Nat) (st0 s : AbortForest) (i : Nat),
    (∀ l p : Nat, subOf st0 l = some p → p < l) →
    DerivedFrom st0 s →
    st0.length - i ≤ fuel →
    ∀ p j : Nat, abortedAt s p = false → abortedAt (abortGo fuel i s) p = true →
      subOf st0 j = some p → abortedAt (abortGo fuel i s) j = true := by
  intro fuel
  induction fuel with
  | zero =>
    intro st0 s i _ _ _ p j hpf hpt _
    simp only [abortGo] at hpt
    rw [hpf] at hpt
    exact absurd hpt (by simp)
  | succ n ihn =>
    intro st0 s i hW1 hder hfuel p j hpf hpt hsubj
    cases hnd : s[i]? with
    | none =>
      rw [abortGo_succ_none hnd] at hpt ⊢
      rw [hpf] at hpt
      exact absurd hpt (by simp)
    | some nd =>
      rcases bool_cases nd.aborted with ha | ha
      · rw [abortGo_succ_active hnd ha] at hpt ⊢
        have hi : i < s.length := (List.getElem?_eq_some.mp hnd).1
        have hlen1 : (setAborted s i).length = s.length := setAborted_length s i
        have hslen : s.length = st0.length := hder.len
        have hderst1 : DerivedFrom st0 (setAborted s i) :=
          derivedFrom_trans hder (derivedFrom_setAborted s i)
        by_cases hpi : p = i
        · rw [hpi] at hpf hsubj
          have hpj_lt : i < j := hW1 j i hsubj
          have hj_lt : j < st0.length := subOf_lt hsubj
          rcases bool_cases (abortedAt s j) with hjf | hjt
          · have hjentry : s[j]? = st0[j]? := hder.unaborted_eq hjf
            have hsubsj : subOf s j = some i := by
              rw [subOf, hjentry]
              exact hsubj
            have hsubs1j : subOf (setAborted s i) j = some i := by
              rw [subOf, setAborted_get_ne (Nat.ne_of_lt hpj_lt)]
              rw [subOf] at hsubsj
              exact hsubsj
            have hjmem : j ∈ kidsOf (setAborted s i) i :=
              kidsOf_mem (by rw [hlen1, hslen]; exact hj_lt) hsubs1j
            have hn1 : 1 ≤ n := by omega
            exact foldl_abort_member hn1 _ _ j hjmem
              (by rw [hlen1, hslen]; exact hj_lt)
          · exact (derivedFrom_trans (derivedFrom_setAborted s i)
              (foldl_derived (fun a k => abortGo_derived n k a) _ _)).aborted_mono hjt
        · have hs1pf : abortedAt (setAborted s i) p = false := by
            rw [abortedAt, setAborted_get_ne (fun he => hpi he.symm)]
            exact hpf
          have hkids : ∀ k ∈ kidsOf (setAborted s i) i, i < k ∧ st0.length - k ≤ n := by
            intro k hk
            have hs1k : subOf (setAborted s i) k = some i := kidsOf_sub hk
            have hs0k : subOf st0 k = some i := hderst1.sub_le hs1k
            have hik : i < k := hW1 k i hs0k
            exact ⟨hik, by omega⟩
          suffices hgen : ∀ (ks : List Nat) (acc : AbortForest),
              DerivedFrom st0 acc →
              (∀ k ∈ ks, i < k ∧ st0.length - k ≤ n) →
              abortedAt acc p = false →
              abortedAt (ks.foldl (fun a k => abortGo n k a) acc) p = true →
              abortedAt (ks.foldl (fun a k => abortGo n k a) acc) j = true by
            exact hgen _ _ hderst1 hkids hs1pf hpt
          intro ks
          induction ks with
          | nil =>
            intro acc _ _ haccf hacct
            rw [List.foldl_nil] at hacct
            rw [haccf] at hacct
            exact absurd hacct (by simp)
          | cons k ks ihk =>
            intro acc hderacc hbnd haccf hacct
            rw [List.foldl_cons] at hacct ⊢
            by_cases hpacc : abortedAt (abortGo n k acc) p = true
            · have hj1 : abortedAt (abortGo n k acc) j = true :=
                ihn st0 acc k hW1 hderacc (hbnd k (List.mem_cons_self k ks)).2
                  p j haccf hpacc hsubj
              exact (foldl_derived (fun a k' => abortGo_derived n k' a) ks _).aborted_mono hj1
            · have hpacc' : abortedAt (abortGo n k acc) p = false := by
                simpa using hpacc
              exact ihk _ (derivedFrom_trans hderacc (abortGo_derived n k acc))
                (fun k' hk' => hbnd k' (List.mem_cons_of_mem k hk')) hpacc' hacct
      · rw [abortGo_succ_aborted hnd ha] at hpt ⊢
        rw [hpf] at hpt
        exact absurd hpt (by simp)

/-- Structural invariants of every reachable forest: parents precede their
children; a live subscription always targets the creation parent; an aborted
node holds no subscription; an unaborted non-root node is subscribed to its
creation parent; and nobody is subscribed to an aborted node. -/
structure WF (st : AbortForest) : Prop where
  parent_lt : ∀ {j : Nat} {nd : ANode}, st[j]? = some nd →
    ∀ {p : Nat}, nd.parent = some p → p < j
  sub_parent : ∀ {j : Nat} {nd : ANode}, st[j]? = some nd →
    ∀ {p : Nat}, nd.sub = some p → nd.parent = some p
  aborted_unsub : ∀ {j : Nat} {nd : ANode}, st[j]? = some nd →
    nd.aborted = true → nd.sub = none
  live_sub : ∀ {j : Nat} {nd : ANode}, st[j]? = some nd → nd.aborted = false →
    ∀ {p : Nat}, nd.parent = some p → nd.sub = some p
  sub_live : ∀ {j p : Nat}, subOf st j = some p → abortedAt st p = false

theorem subOf_entry {st : AbortForest} {l p : Nat} (h : subOf st l = some p) :
    ∃ nd : ANode, st[l]? = some nd ∧ nd.sub = some p := by
  rw [subOf] at h
  cases hl : st[l]? with
  | none => rw [hl] at h; exact absurd h (by simp)
  | some nd =>
    rw [hl] at h
    exact ⟨nd, rfl, h⟩

theorem parentOf_entry {st : AbortForest} {l p : Nat} (h : parentOf st l = some p) :
    ∃ nd : ANode, st[l]? = some nd ∧ nd.parent = some p := by
  rw [parentOf] at h
  cases hl : st[l]? with
  | none => rw [hl] at h; exact absurd h (by simp)
  | some nd =>
    rw [hl] at h
    exact ⟨nd, rfl, h⟩

theorem WF.sub_lt {st : AbortForest} (h : WF st) {l p : Nat}
    (hs : subOf st l = some p) : p < l := by
  obtain ⟨nd, hnd, hsub⟩ := subOf_entry hs
  exact h.parent_lt hnd (h.sub_parent hnd hsub)

theorem WF.parentOf_lt {st : AbortForest} (h : WF st) {l p : Nat}
    (hs : parentOf st l = some p) : p < l := by
  obtain ⟨nd, hnd, hpar⟩ := parentOf_entry hs
  exact h.parent_lt hnd hpar

theorem WF.subOf_parentOf {st : AbortForest} (h : WF st) {l p : Nat}
    (hs : subOf st l = some p) : parentOf st l = some p := by
  obtain ⟨nd, hnd, hsub⟩ := subOf_entry hs
  rw [parentOf, hnd]
  simpa using h.sub_parent hnd hsub

theorem parentOf_lt_length {st : AbortForest} {l p : Nat}
    (h : parentOf st l = some p) : l < st.length := by
  obtain ⟨nd, hnd, _⟩ := parentOf_entry h
  exact (List.getElem?_eq_some.mp hnd).1

theorem wf_nil : WF [] := by
  constructor
  · intro j nd h; simp at h
  · intro j nd h; simp at h
  · intro j nd h; simp at h
  · intro j nd h; simp at h
  · intro j p h; rw [subOf] at h; simp at h

theorem getElem?_append_lt {st : AbortForest} {x : ANode} {j : Nat}
    (h : j < st.length) : (st ++ [x])[j]? = st[j]? :=
  List.getElem?_append_left h

/-- Appending a node that respects the invariants preserves well-formedness. -/
theorem wf_append {st : AbortForest} (h : WF st) (nd : ANode)
    (h1 : ∀ p : Nat, nd.parent = some p → p < st.length)
    (h2 : ∀ p : Nat, nd.sub = some p → nd.parent = some p)
    (h3 : nd.aborted = true → nd.sub = none)
    (h4 : nd.aborted = false → ∀ p : Nat, nd.parent = some p → nd.sub = some p)
    (h5 : ∀ p : Nat, nd.sub = some p → abortedAt st p = false) :
    WF (st ++ [nd]) := by
  have hget : ∀ {j : Nat} {nd' : ANode}, (st ++ [nd])[j]? = some nd' →
      (j < st.length ∧ st[j]? = some nd') ∨ (j = st.length ∧ nd' = nd) := by
    intro j nd' hj
    rcases Nat.lt_trichotomy j st.length with hlt | heq | hgt
    · left
      exact ⟨hlt, by rw [← getElem?_append_lt hlt]; exact hj⟩
    · right
      subst heq
      refine ⟨rfl, ?_⟩
      rw [List.getElem?_append_right (Nat.le_refl _)] at hj
      simp at hj
      exact hj.symm
    · exfalso
      rw [List.getElem?_eq_none (l := st ++ [nd]) (by simp; omega)] at hj
      exact absurd hj (by simp)
  have haborted_lt : ∀ {p : Nat}, p < st.length →
      abortedAt (st ++ [nd]) p = abortedAt st p := by
    intro p hp
    rw [abortedAt, abortedAt, getElem?_append_lt hp]
  refine ⟨?_, ?_, ?_, ?_, ?_⟩
  · intro j nd' hj p hp
    rcases hget hj with ⟨hlt, hold⟩ | ⟨rfl, rfl⟩
    · exact h.parent_lt hold hp
    · exact h1 p hp
  · intro j nd' hj p hp
    rcases hget hj with ⟨_, hold⟩ | ⟨rfl, rfl⟩
    · exact h.sub_parent hold hp
    · exact h2 p hp
  · intro j nd' hj ha
    rcases hget hj with ⟨_, hold⟩ | ⟨rfl, rfl⟩
    · exact h.aborted_unsub hold ha
    · exact h3 ha
  · intro j nd' hj ha p hp
    rcases hget hj with ⟨_, hold⟩ | ⟨rfl, rfl⟩
    · exact h.live_sub hold ha hp
    · exact h4 ha p hp
  · intro j p hs
    obtain ⟨nd', hj, hsub⟩ := subOf_entry hs
    rcases hget hj with ⟨hlt, hold⟩ | ⟨rfl, rfl⟩
    · have hsold : subOf st j = some p := by rw [subOf, hold]; simpa using hsub
      have hp_lt : p < st.length := Nat.lt_trans (h.sub_lt hsold) hlt
      rw [haborted_lt hp_lt]
      exact h.sub_live hsold
    · have hp_lt : p < st.length := h1 p (h2 p hsub)
      rw [haborted_lt hp_lt]
      exact h5 p hsub

theorem wf_newRoot {st : AbortForest} (h : WF st) : WF (newRoot st) := by
  unfold newRoot
  exact wf_append h _ (fun p hp => by simp at hp) (fun p hp => by simp at hp)
    (fun _ => rfl) (fun _ p hp => by simp at hp) (fun p hp => by simp at hp)

theorem subNode_eq_unaborted {st : AbortForest} {i : Nat} {nd : ANode}
    (hnd : st[i]? = some nd) (ha : nd.aborted = false) :
    subNode st i = st ++ [⟨some i, some i, false⟩] := by
  unfold subNode
  rw [hnd]
  simp [ha]

theorem subNode_eq_aborted {st : AbortForest} {i : Nat} {nd : ANode}
    (hnd : st[i]? = some nd) (ha : nd.aborted = true) :
    subNode st i = st ++ [⟨some i, none, true⟩] := by
  unfold subNode
  rw [hnd]
  simp [ha]

theorem wf_subNode {st : AbortForest} {i : Nat} (h : WF st) (hi : i < st.length) :
    WF (subNode st i) := by
  obtain ⟨nd, hnd⟩ : ∃ nd : ANode, st[i]? = some nd :=
    ⟨st[i], List.getElem?_eq_getElem hi⟩
  rcases bool_cases nd.aborted with ha | ha
  · rw [subNode_eq_unaborted hnd ha]
    refine wf_append h _ ?_ ?_ ?_ ?_ ?_
    · intro p hp
      have : i = p := by simpa using hp
      omega
    · intro p hp
      have hip : i = p := by simpa using hp
      simp [hip]
    · intro hab
      simp at hab
    · intro _ p hp
      have hip : i = p := by simpa using hp
      simp [hip]
    · intro p hp
      have hip : i = p := by simpa using hp
      subst hip
      rw [abortedAt, hnd]
      simpa using ha
  · rw [subNode_eq_aborted hnd ha]
    refine wf_append h _ ?_ ?_ ?_ ?_ ?_
    · intro p hp
      have : i = p := by simpa using hp
      omega
    · intro p hp
      simp at hp
    · intro _
      rfl
    · intro hab _ _
      simp at hab
    · intro p hp
      simp at hp

theorem wf_abortNode {st : AbortForest} (h : WF st) (i : Nat) :
    WF (abortNode st i) := by
  have hder := abortNode_derived st i
  constructor
  · intro j nd' hj p hp
    rcases hder.entry j with heq | ⟨nd0, h0, hm⟩
    · rw [heq] at hj
      exact h.parent_lt hj hp
    · rw [hm] at hj
      have : nd0.marked = nd' := by injection hj
      rw [← this] at hp
      exact h.parent_lt h0 hp
  · intro j nd' hj p hp
    rcases hder.entry j with heq | ⟨nd0, h0, hm⟩
    · rw [heq] at hj
      exact h.sub_parent hj hp
    · rw [hm] at hj
      have hmk : nd0.marked = nd' := by injection hj
      rw [← hmk] at hp ⊢
      simp [ANode.marked] at hp
  · intro j nd' hj ha
    rcases hder.entry j with heq | ⟨nd0, h0, hm⟩
    · rw [heq] at hj
      exact h.aborted_unsub hj ha
    · rw [hm] at hj
      have hmk : nd0.marked = nd' := by injection hj
      rw [← hmk]
      rfl
  · intro j nd' hj ha p hp
    rcases hder.entry j with heq | ⟨nd0, h0, hm⟩
    · rw [heq] at hj
      exact h.live_sub hj ha hp
    · rw [hm] at hj
      have hmk : nd0.marked = nd' := by injection hj
      rw [← hmk] at ha
      simp [ANode.marked] at ha
  · intro j p hs
    obtain ⟨nd', hj, hsub⟩ := subOf_entry hs
    rcases hder.entry j with heq | ⟨nd0, h0, hm⟩
    · have hj' : st[j]? = some nd' := by rw [← heq]; exact hj
      have hsold : subOf st j = some p := by
        rw [subOf, hj']
        simpa using hsub
      have habpre : abortedAt st p = false := h.sub_live hsold
      rcases bool_cases (abortedAt (abortNode st i) p) with hf | ht
      · exact hf
      · exfalso
        have hjunab : abortedAt st j = false := by
          rcases bool_cases (abortedAt st j) with hjf | hjt
          · exact hjf
          · exfalso
            have : nd'.aborted = true := by
              rw [abortedAt, hj'] at hjt
              simpa using hjt
            have := h.aborted_unsub hj' this
            rw [this] at hsub
            exact absurd hsub (by simp)
        have habj : abortedAt (abortNode st i) j = true :=
          abortGo_complete st.length st st i (fun l p' hlp => h.sub_lt hlp)
            (derivedFrom_refl st) (by omega) p j habpre ht hsold
        rw [abortedAt] at habj
        have hjeq : (abortNode st i)[j]? = st[j]? := heq
        rw [hjeq, hj'] at habj
        rw [abortedAt, hj'] at hjunab
        simp at habj hjunab
        rw [habj] at hjunab
        exact absurd hjunab (by simp)
    · rw [hm] at hj
      have hmk : nd0.marked = nd' := by injection hj
      rw [← hmk] at hsub
      simp [ANode.marked] at hsub

/-- Every reachable forest is well-formed. -/
theorem reach_wf {st : AbortForest} (h : Reach st) : WF st := by
  induction h with
  | nil => exact wf_nil
  | root _ ih => exact wf_newRoot ih
  | sub _ hi ih => exact wf_subNode ih hi
  | abort i _ ih => exact wf_abortNode ih i

/-- In a well-formed forest, a node whose creation parent is aborted is
itself aborted (were it live, it would still be subscribed to the parent,
contradicting that nobody is subscribed to an aborted node). -/
theorem wf_parent_aborted {st : AbortForest} (h : WF st) {j p : Nat}
    (hp : parentOf st j = some p) (ha : abortedAt st p = true) :
    abortedAt st j = true := by
  obtain ⟨nd, hnd, hpar⟩ := parentOf_entry hp
  rcases bool_cases nd.aborted with hf | ht
  · exfalso
    have hsub : nd.sub = some p := h.live_sub hnd hf hpar
    have hsubj : subOf st j = some p := by
      rw [subOf, hnd]
      simpa using hsub
    rw [h.sub_live hsubj] at ha
    exact absurd ha (by simp)
  · rw [abortedAt, hnd]
    simpa using ht

/-- `IsDesc st i j`: node `j` was created, directly or transitively via
`sub`/`child`, under node `i` — `i` is a strict ancestor of `j` along
creation parents. -/
inductive IsDesc (st : AbortForest) (i : Nat) : Nat → Prop where
  | direct {j : Nat} : parentOf st j = some i → IsDesc st i j
  | step {j k : Nat} : parentOf st j = some k → IsDesc st i k → IsDesc st i j

theorem isDesc_lt {st : AbortForest} (h : WF st) {i j : Nat}
    (hd : IsDesc st i j) : i < j := by
  induction hd with
  | direct hp => exact h.parentOf_lt hp
  | step hp _ ih => exact Nat.lt_trans ih (h.parentOf_lt hp)

theorem isDesc_of_parent_eq {s t : AbortForest}
    (hpar : ∀ l : Nat, parentOf t l = parentOf s l) {i j : Nat}
    (hd : IsDesc s i j) : IsDesc t i j := by
  induction hd with
  | direct hp => exact IsDesc.direct ((hpar _).trans hp)
  | step hp _ ih => exact IsDesc.step ((hpar _).trans hp) ih

theorem subReach_isDesc {st : AbortForest} (h : WF st) {i j : Nat}
    (hr : SubReach st i j) : j = i ∨ IsDesc st i j := by
  induction hr with
  | refl => exact Or.inl rfl
  | step hs _ ih =>
    right
    have hp := h.subOf_parentOf hs
    rcases ih with rfl | hk
    · exact IsDesc.direct hp
    · exact IsDesc.step hp hk

theorem isDesc_inv {st : AbortForest} {i j : Nat} (hd : IsDesc st i j) :
    ∃ k, parentOf st j = some k ∧ (k = i ∨ IsDesc st i k) := by
  cases hd with
  | direct hp => exact ⟨i, hp, Or.inl rfl⟩
  | step hp hk => exact ⟨_, hp, Or.inr hk⟩

/-- Aborting a node aborts every node created under it, directly or
transitively. -/
theorem abortNode_desc_aborted {st : AbortForest} {i j : Nat}
    (hre : Reach st) (hi : i < st.length) (hd : IsDesc st i j) :
    abortedAt (abortNode st i) j = true := by
  have hpost : WF (abortNode st i) := reach_wf (Reach.abort i hre)
  have hia : abortedAt (abortNode st i) i = true := by
    unfold abortNode
    exact abortGo_aborts_self (by omega) hi
  have hd' : IsDesc (abortNode st i) i j :=
    isDesc_of_parent_eq (fun l => (abortNode_derived st i).parent_eq l) hd
  clear hd
  induction hd' with
  | direct hp => exact wf_parent_aborted hpost hp hia
  | step hp _ ih => exact wf_parent_aborted hpost hp ih

/-- Aborting a node leaves the aborted state of every non-descendant (other
than itself) untouched. -/
theorem abortNode_nondesc_unchanged {st : AbortForest} {i j : Nat}
    (hre : Reach st) (hji : j ≠ i) (hnd : ¬ IsDesc st i j) :
    abortedAt (abortNode st i) j = abortedAt st j := by
  have hw := reach_wf hre
  have hnr : ¬ SubReach st i j := by
    intro hr
    rcases subReach_isDesc hw hr with rfl | hd
    · exact hji rfl
    · exact hnd hd
  rw [abortedAt, abortNode_frame hnr]
  rfl

/-- C2: for every cancellation node in a reachable forest, aborting it
transitions every descendant node (direct or transitive, created via
`sub`/`child`) to the aborted state, and aborting a child node never changes
the aborted state of its parent or of its sibling nodes. -/
theorem C2_abort_transitions_descendants (st : AbortForest) (i : Nat)
    (hre : Reach st) (hi : i < st.length) :
    (∀ j, IsDesc st i j → abortedAt (abortNode st i) j = true) ∧
    (∀ p, parentOf st i = some p →
      abortedAt (abortNode st i) p = abortedAt st p) ∧
    (∀ s, s ≠ i → parentOf st s = parentOf st i →
      abortedAt (abortNode st i) s = abortedAt st s) := by
  have hw := reach_wf hre
  refine ⟨fun j hd => abortNode_desc_aborted hre hi hd, ?_, ?_⟩
  · intro p hp
    have hpi : p < i := hw.parentOf_lt hp
    refine abortNode_nondesc_unchanged hre (by omega) ?_
    intro hd
    have := isDesc_lt hw hd
    omega
  · intro s hs hps
    refine abortNode_nondesc_unchanged hre hs ?_
    intro hd
    obtain ⟨k2, hpk, hki⟩ := isDesc_inv hd
    rw [hps] at hpk
    rcases hki with rfl | hdk
    · have := hw.parentOf_lt hpk
      omega
    · have h1 := hw.parentOf_lt hpk
      have h2 := isDesc_lt hw hdk
      omega

/-- Witness for C2: in the forest root `0` with children `1`, `2` (siblings)
and grandchild `3` under `1`, aborting node `1` aborts its descendant `3` and
leaves its parent `0` and its sibling `2` untouched. -/
theorem C2_abort_transitions_descendants_witness :
    abortedAt (abortNode (subNode (subNode (subNode (newRoot []) 0) 0) 1) 1) 3 = true ∧
    abortedAt (abortNode (subNode (subNode (subNode (newRoot []) 0) 0) 1) 1) 0 =
      abortedAt (subNode (subNode (subNode (newRoot []) 0) 0) 1) 0 ∧
    abortedAt (abortNode (subNode (subNode (subNode (newRoot []) 0) 0) 1) 1) 2 =
      abortedAt (subNode (subNode (subNode (newRoot []) 0) 0) 1) 2 := by
  have hre : Reach (subNode (subNode (subNode (newRoot []) 0) 0) 1) :=
    Reach.sub (Reach.sub (Reach.sub (Reach.root Reach.nil) (by decide)) (by decide))
      (by decide)
  have h := C2_abort_transitions_descendants _ 1 hre (by decide)
  exact ⟨h.1 3 (IsDesc.direct (by decide)), h.2.1 0 (by decide),
    h.2.2 2 (by decide) (by decide)⟩

theorem subNode_length_of_lt {st : AbortForest} {i : Nat} (hi : i < st.length) :
    (subNode st i).length = st.length + 1 := by
  obtain ⟨nd, hnd⟩ : ∃ nd : ANode, st[i]? = some nd :=
    ⟨st[i], List.getElem?_eq_getElem hi⟩
  rcases bool_cases nd.aborted with ha | ha
  · rw [subNode_eq_unaborted hnd ha]
    simp
  · rw [subNode_eq_aborted hnd ha]
    simp

/-- The node appended by `subNode st i` records `i` as its creation parent. -/
theorem subNode_new_parent {st : AbortForest} {i : Nat} (hi : i < st.length) :
    parentOf (subNode st i) st.length = some i := by
  obtain ⟨nd, hnd⟩ : ∃ nd : ANode, st[i]? = some nd :=
    ⟨st[i], List.getElem?_eq_getElem hi⟩
  rcases bool_cases nd.aborted with ha | ha
  · rw [subNode_eq_unaborted hnd ha]
    simp [parentOf]
  · rw [subNode_eq_aborted hnd ha]
    simp [parentOf]

theorem subNode_get_old {st : AbortForest} {i j : Nat} (hj : j < st.length) :
    (subNode st i)[j]? = st[j]? := by
  unfold subNode
  cases hnd : st[i]? with
  | none => rfl
  | some nd =>
    rcases bool_cases nd.aborted with ha | ha <;>
      simp [ha, getElem?_append_lt hj]

/-- `Ctx.re`: `this.abort()` followed by `Object.getPrototypeOf(this).sub()`
— abort the node, then create a fresh node under the aborted node's own
creation parent. (On a parentless root the source has no parent scope to
return to; the claim concerns child scopes, with a parent.) -/
def reNode (st : AbortForest) (c : Nat) : AbortForest :=
  match parentOf st c with
  | some p => subNode (abortNode st c) p
  | none => abortNode st c

/-- `k` successive `re()` calls, each applied to the node the previous call
returned (the appended node, whose index is the pre-append length): the state
and the latest node. -/
def reIter (st : AbortForest) (c : Nat) : Nat → AbortForest × Nat
  | 0 => (st, c)
  | k + 1 =>
    let prev := reIter st c k
    (reNode prev.1 prev.2, prev.1.length)

/-- Along iterated replacement the forest stays reachable, the latest node is
a valid index, and — key invariant — its creation parent is still the
original parent `p`. -/
theorem reIter_invariant (st : AbortForest) (c p : Nat)
    (hre : Reach st) (hp : parentOf st c = some p) :
    ∀ k, Reach (reIter st c k).1 ∧ (reIter st c k).2 < (reIter st c k).1.length ∧
      parentOf (reIter st c k).1 (reIter st c k).2 = some p := by
  intro k
  induction k with
  | zero => exact ⟨hre, parentOf_lt_length hp, hp⟩
  | succ k ih =>
    obtain ⟨hre1, hlt, hpar⟩ := ih
    have hplt : p < (reIter st c k).2 := (reach_wf hre1).parentOf_lt hpar
    have habre : Reach (abortNode (reIter st c k).1 (reIter st c k).2) :=
      Reach.abort _ hre1
    have hplen : p < (abortNode (reIter st c k).1 (reIter st c k).2).length := by
      rw [abortNode_length]
      omega
    have hrenode : reNode (reIter st c k).1 (reIter st c k).2 =
        subNode (abortNode (reIter st c k).1 (reIter st c k).2) p := by
      unfold reNode
      rw [hpar]
    refine ⟨?_, ?_, ?_⟩
    · show Reach (reIter st c (k + 1)).1
      simp only [reIter]
      rw [hrenode]
      exact Reach.sub habre hplen
    · show (reIter st c (k + 1)).2 < (reIter st c (k + 1)).1.length
      simp only [reIter]
      rw [hrenode, subNode_length_of_lt hplen, abortNode_length]
      omega
    · show parentOf (reIter st c (k + 1)).1 (reIter st c (k + 1)).2 = some p
      simp only [reIter]
      rw [hrenode]
      have hnew := subNode_new_parent hplen
      rw [abortNode_length] at hnew
      exact hnew

/-- C6: for every child node `c` with original parent `p`, `re()` aborts `c`
and yields a new node whose cancellation parent is `p` itself — a sibling of
`c`, not a descendant of it — and after any number of further `re()` calls
(each replacing the latest sibling), the latest node still has parent `p`, so
aborting `p` still aborts it. -/
theorem C6_re_sibling (st : AbortForest) (c p k : Nat)
    (hre : Reach st) (hp : parentOf st c = some p) :
    abortedAt (reNode st c) c = true ∧
    parentOf (reIter st c (k + 1)).1 (reIter st c (k + 1)).2 = some p ∧
    ¬ IsDesc (reIter st c (k + 1)).1 c (reIter st c (k + 1)).2 ∧
    abortedAt (abortNode (reIter st c (k + 1)).1 p) (reIter st c (k + 1)).2 = true := by
  have hclen : c < st.length := parentOf_lt_length hp
  obtain ⟨hreF, hltF, hparF⟩ := reIter_invariant st c p hre hp (k + 1)
  have hwF := reach_wf hreF
  have hpc : p < c := (reach_wf hre).parentOf_lt hp
  refine ⟨?_, hparF, ?_, ?_⟩
  · have h1 : abortedAt (abortNode st c) c = true := by
      unfold abortNode
      exact abortGo_aborts_self (by omega) hclen
    unfold reNode
    rw [hp]
    have hc' : c < (abortNode st c).length := by
      rw [abortNode_length]
      exact hclen
    rw [abortedAt, subNode_get_old hc']
    rw [abortedAt] at h1
    exact h1
  · intro hd
    obtain ⟨k2, hpk, hki⟩ := isDesc_inv hd
    rw [hparF] at hpk
    have hk2 : p = k2 := by injection hpk
    subst hk2
    rcases hki with hcc | hdk
    · omega
    · have := isDesc_lt hwF hdk
      omega
  · have hplenF : p < (reIter st c (k + 1)).1.length :=
      Nat.lt_trans (hwF.parentOf_lt hparF) hltF
    exact abortNode_desc_aborted hreF hplenF (IsDesc.direct hparF)

/-- Witness for C6: root `0` with child `1`; one `re()` on `1` aborts it and
creates sibling `2` under `0`, and aborting `0` aborts `2`. -/
theorem C6_re_sibling_witness :
    abortedAt (reNode (subNode (newRoot []) 0) 1) 1 = true ∧
    parentOf (reIter (subNode (newRoot []) 0) 1 1).1
      (reIter (subNode (newRoot []) 0) 1 1).2 = some 0 ∧
    ¬ IsDesc (reIter (subNode (newRoot []) 0) 1 1).1 1
      (reIter (subNode (newRoot []) 0) 1 1).2 ∧
    abortedAt (abortNode (reIter (subNode (newRoot []) 0) 1 1).1 0)
      (reIter (subNode (newRoot []) 0) 1 1).2 = true :=
  C6_re_sibling (subNode (newRoot []) 0) 1 0 0
    (Reach.sub (Reach.root Reach.nil) (by decide)) (by decide)

/-- C7: a node created from an already-aborted parent is created aborted;
a node created from a live parent starts unaborted, subscribed to the
parent's abort notification, and aborting the parent then aborts it. -/
theorem C7_sub_inherits_abort (st : AbortForest) (i : Nat)
    (hre : Reach st) (hi : i < st.length) :
    (abortedAt st i = true → abortedAt (subNode st i) st.length = true) ∧
    (abortedAt st i = false →
      abortedAt (subNode st i) st.length = false ∧
      subOf (subNode st i) st.length = some i ∧
      abortedAt (abortNode (subNode st i) i) st.length = true) := by
  obtain ⟨nd, hnd⟩ : ∃ nd : ANode, st[i]? = some nd :=
    ⟨st[i], List.getElem?_eq_getElem hi⟩
  constructor
  · intro ha
    have hab : nd.aborted = true := by
      rw [abortedAt, hnd] at ha
      simpa using ha
    rw [subNode_eq_aborted hnd hab]
    simp [abortedAt]
  · intro ha
    have hab : nd.aborted = false := by
      rw [abortedAt, hnd] at ha
      simpa using ha
    refine ⟨?_, ?_, ?_⟩
    · rw [subNode_eq_unaborted hnd hab]
      simp [abortedAt]
    · rw [subNode_eq_unaborted hnd hab]
      simp [subOf]
    · have hre2 : Reach (subNode st i) := Reach.sub hre hi
      have hi2 : i < (subNode st i).length := by
        rw [subNode_length_of_lt hi]
        omega
      exact abortNode_desc_aborted hre2 hi2 (IsDesc.direct (subNode_new_parent hi))

/-- Witness for C7: a child of the aborted root is born aborted; a child of
the live root is subscribed and is aborted when the root is aborted. -/
theorem C7_sub_inherits_abort_witness :
    abortedAt (subNode (abortNode (newRoot []) 0) 0) 1 = true ∧
    subOf (subNode (newRoot []) 0) 1 = some 0 ∧
    abortedAt (abortNode (subNode (newRoot []) 0) 0) 1 = true := by
  have h1 := C7_sub_inherits_abort (abortNode (newRoot []) 0) 0
    (Reach.abort 0 (Reach.root Reach.nil)) (by decide)
  have h2 := C7_sub_inherits_abort (newRoot []) 0 (Reach.root Reach.nil) (by decide)
  exact ⟨h1.1 (by decide), (h2.2 (by decide)).2.1, (h2.2 (by decide)).2.2⟩

end Jtg

